import Mathlib

/-!
Verification of the byte-span (`Slice`) and edge-key (`Slice_v`) types of
`include/leveldb/slice.h`.

A C++ `Slice` is a non-owning view `(data_, size_)` into externally owned
memory.  We embed it as a record holding the backing storage `mem` (the list
of byte values the external buffer contains), the pointer `data_` rendered as
an offset into `mem`, and the length `size_`.  The bytes the view denotes are
`(mem.drop data_).take size_`.  The validity contract of the source ("pointer
must reference a contiguous valid region of at least length bytes") becomes
the predicate `Slice.wf`.  Fatal assertion failures (`assert` in the source)
are embedded as `Option` results: `none` models process abortion.
-/

namespace LevelDB

/-- The C++ `Slice`: `mem` is the external backing buffer, `data_` the
pointer (as an offset into that buffer), `size_` the view length, mirroring
the two fields `data_` and `size_` of the source class. -/
structure Slice where
  mem : List Nat
  data_ : Nat
  size_ : Nat
  deriving DecidableEq, Repr

namespace Slice

/-- `Slice::data()` (as an offset). -/
def data (s : Slice) : Nat := s.data_

/-- `Slice::size()`. -/
def size (s : Slice) : Nat := s.size_

/-- `Slice::empty()`. -/
def empty (s : Slice) : Bool := s.size_ == 0

/-- The byte sequence the view denotes: the `size_` bytes starting at
offset `data_` of the backing buffer. -/
def bytes (s : Slice) : List Nat := (s.mem.drop s.data_).take s.size_

/-- The borrowed-lifetime contract of the source: the pointer references a
valid region of at least `size_` bytes. -/
def wf (s : Slice) : Prop := s.data_ + s.size_ ≤ s.mem.length

instance (s : Slice) : Decidable s.wf := by unfold wf; infer_instance

/-- `Slice(const char* d, size_t n)`: a view over a whole buffer. -/
def ofBytes (l : List Nat) : Slice := ⟨l, 0, l.length⟩

/-- `Slice::operator[](n)`: `assert(n < size()); return data_[n]`.
`none` models the fatal assertion (or an invalid read). -/
def get (s : Slice) (n : Nat) : Option Nat :=
  if n < s.size_ then s.mem[s.data_ + n]? else none

/-- `Slice::remove_prefix(n)`: `assert(n <= size()); data_ += n; size_ -= n`.
`none` models the fatal assertion. -/
def removePrefix (s : Slice) (n : Nat) : Option Slice :=
  if n ≤ s.size_ then some ⟨s.mem, s.data_ + n, s.size_ - n⟩ else none

end Slice

/-- C `memcmp` over byte lists (sign only, which is all the contract
promises): three-way comparison of the leading bytes, `0` on exhaustion. -/
def memcmp : List Nat → List Nat → Int
  | x :: xs, y :: ys =>
    if x < y then -1 else if y < x then 1 else memcmp xs ys
  | _, _ => 0

namespace Slice

/-- `Slice::compare(b)`: memcmp over the shorter length, then the shorter
span sorts first. -/
def compare (a b : Slice) : Int :=
  let min_len := min a.size_ b.size_
  let r := memcmp (a.bytes.take min_len) (b.bytes.take min_len)
  if r = 0 then
    if a.size_ < b.size_ then -1
    else if b.size_ < a.size_ then 1
    else 0
  else r

/-- `operator==(Slice, Slice)`: equal sizes and `memcmp` of `x.size()` bytes
is zero. -/
def beq (x y : Slice) : Bool :=
  x.size_ == y.size_ &&
    memcmp (x.bytes.take x.size_) (y.bytes.take x.size_) == 0

/-- `operator!=(Slice, Slice)`. -/
def bne (x y : Slice) : Bool := !(beq x y)

end Slice

/-- Specification-level three-way lexicographic comparison of byte lists:
first differing byte decides, a strict proper head sorts first. -/
def lexCmp : List Nat → List Nat → Int
  | [], [] => 0
  | [], _ :: _ => -1
  | _ :: _, [] => 1
  | x :: xs, y :: ys =>
    if x < y then -1 else if y < x then 1 else lexCmp xs ys

/-- `Slice::compare` expressed purely on the denoted byte lists, keeping the
exact structure of the source (min length, memcmp, shorter-first). -/
def sliceCmpList (A B : List Nat) : Int :=
  let min_len := min A.length B.length
  let r := memcmp (A.take min_len) (B.take min_len)
  if r = 0 then
    if A.length < B.length then -1
    else if B.length < A.length then 1
    else 0
  else r

/-- The byte values of a string (the characters `std::string` stores; all
encodings here are ASCII). -/
def strBytes (s : String) : List Nat := s.toList.map Char.toNat

/-- The C++ `Slice_v` (edge key): the two integers `src_` and `dst_`, the
self-owned textual buffer `s_`, and the inherited `(data_, size_)` view
fields, embedded as the `Slice` they denote. -/
structure Slice_v where
  src_ : Int
  dst_ : Int
  s_ : String
  view : Slice
  deriving DecidableEq, Repr

namespace Slice_v

/-- `Slice_v(int src, int dst)`: builds the encoding
`std::to_string(src) + '|' + std::to_string(dst)` and points the inherited
view fields at that self-owned buffer. -/
def make (src dst : Int) : Slice_v :=
  let s := toString src ++ "|" ++ toString dst
  ⟨src, dst, s, ⟨strBytes s, 0, (strBytes s).length⟩⟩

/-- `Slice_v::src()`. -/
def src (x : Slice_v) : Int := x.src_

/-- `Slice_v::dst()`. -/
def dst (x : Slice_v) : Int := x.dst_

/-- `Slice_v::compare(b)`: source integer first, then destination. -/
def compare (a b : Slice_v) : Int :=
  if a.src_ < b.src_ then -1
  else if a.src_ > b.src_ then 1
  else if a.dst_ < b.dst_ then -1
  else if a.dst_ > b.dst_ then 1
  else 0

/-- `operator==(Slice_v, Slice_v&)`: sources match exactly and destinations
match exactly or either one is the wildcard `-1`. -/
def beq (x y : Slice_v) : Bool :=
  x.src == y.src && (x.dst == y.dst || x.dst == -1 || y.dst == -1)

/-- `operator!=(Slice_v, Slice_v)`. -/
def bne (x y : Slice_v) : Bool := !(beq x y)

end Slice_v

/-! ### Lemmas about the list-level comparison functions -/

theorem Slice.bytes_length (s : Slice) (h : s.wf) : s.bytes.length = s.size_ := by
  unfold Slice.wf at h
  unfold Slice.bytes
  rw [List.length_take, List.length_drop]
  omega

theorem lexCmp_eq_zero_iff (A : List Nat) : ∀ B, lexCmp A B = 0 ↔ A = B := by
  induction A with
  | nil => intro B; cases B <;> simp [lexCmp]
  | cons x xs ih =>
    intro B
    cases B with
    | nil => simp [lexCmp]
    | cons y ys =>
      simp only [lexCmp, List.cons.injEq]
      rcases Nat.lt_trichotomy x y with h | h | h
      · rw [if_pos h]
        constructor
        · intro hc; exact absurd hc (by decide)
        · rintro ⟨h1, -⟩; omega
      · subst h
        rw [if_neg (lt_irrefl x), if_neg (lt_irrefl x), ih ys]
        simp
      · rw [if_neg (by omega), if_pos h]
        constructor
        · intro hc; exact absurd hc (by decide)
        · rintro ⟨h1, -⟩; omega

theorem lexCmp_mem (A : List Nat) : ∀ B, lexCmp A B = -1 ∨ lexCmp A B = 0 ∨ lexCmp A B = 1 := by
  induction A with
  | nil => intro B; cases B <;> simp [lexCmp]
  | cons x xs ih =>
    intro B
    cases B with
    | nil => simp [lexCmp]
    | cons y ys =>
      simp only [lexCmp]
      split_ifs <;> simp [ih ys]

theorem lexCmp_swap (A : List Nat) : ∀ B, lexCmp B A = -(lexCmp A B) := by
  induction A with
  | nil => intro B; cases B <;> simp [lexCmp]
  | cons x xs ih =>
    intro B
    cases B with
    | nil => simp [lexCmp]
    | cons y ys =>
      simp only [lexCmp]
      split_ifs <;> first | exact ih ys | omega

theorem lexCmp_trans (A : List Nat) :
    ∀ B C, lexCmp A B = -1 → lexCmp B C = -1 → lexCmp A C = -1 := by
  induction A with
  | nil =>
    intro B C h1 h2
    cases C with
    | nil =>
      cases B with
      | nil => simp [lexCmp] at h1
      | cons b bs => simp [lexCmp] at h2
    | cons c cs => simp [lexCmp]
  | cons a as ih =>
    intro B C h1 h2
    cases B with
    | nil => simp [lexCmp] at h1
    | cons b bs =>
      cases C with
      | nil => simp [lexCmp] at h2
      | cons c cs =>
        simp only [lexCmp] at h1 h2 ⊢
        split_ifs at h1 h2 ⊢ <;> first | rfl | omega | exact ih bs cs h1 h2

theorem lexCmp_proper_head (A : List Nat) :
    ∀ B, A.length < B.length → A = B.take A.length → lexCmp A B = -1 := by
  induction A with
  | nil =>
    intro B hlen _
    cases B with
    | nil => simp at hlen
    | cons b bs => simp [lexCmp]
  | cons a as ih =>
    intro B hlen hpre
    cases B with
    | nil => simp at hlen
    | cons b bs =>
      rw [List.length_cons, List.take_succ_cons] at hpre
      injection hpre with h1 h2
      subst h1
      simp only [lexCmp, if_neg (lt_irrefl a)]
      exact ih bs (by simpa using hlen) h2

theorem memcmp_eq_zero_iff (A : List Nat) :
    ∀ B : List Nat, A.length = B.length → (memcmp A B = 0 ↔ A = B) := by
  induction A with
  | nil =>
    intro B h
    cases B with
    | nil => simp [memcmp]
    | cons y ys => simp at h
  | cons x xs ih =>
    intro B h
    cases B with
    | nil => simp at h
    | cons y ys =>
      simp only [memcmp, List.cons.injEq]
      rcases Nat.lt_trichotomy x y with hxy | hxy | hxy
      · rw [if_pos hxy]
        constructor
        · intro hc; exact absurd hc (by decide)
        · rintro ⟨h1, -⟩; omega
      · subst hxy
        rw [if_neg (lt_irrefl x), if_neg (lt_irrefl x), ih ys (by simpa using h)]
        simp
      · rw [if_neg (by omega), if_pos hxy]
        constructor
        · intro hc; exact absurd hc (by decide)
        · rintro ⟨h1, -⟩; omega

theorem sliceCmpList_eq_lexCmp (A : List Nat) : ∀ B, sliceCmpList A B = lexCmp A B := by
  induction A with
  | nil =>
    intro B
    cases B with
    | nil => rfl
    | cons y ys => simp [sliceCmpList, lexCmp, memcmp]
  | cons x xs ih =>
    intro B
    cases B with
    | nil => simp [sliceCmpList, lexCmp, memcmp]
    | cons y ys =>
      have key : sliceCmpList (x :: xs) (y :: ys) =
          (if x < y then -1 else if y < x then 1 else sliceCmpList xs ys) := by
        have hmin : (xs.length + 1) ⊓ (ys.length + 1) = xs.length ⊓ ys.length + 1 := by
          omega
        simp only [sliceCmpList, List.length_cons, hmin, List.take_succ_cons, memcmp,
          Nat.add_lt_add_iff_right]
        rcases Nat.lt_trichotomy x y with h | h | h
        · have hny : ¬ y < x := by omega
          rw [if_pos h, if_pos h]
          norm_num
        · subst h
          simp
        · have hnx : ¬ x < y := by omega
          rw [if_neg hnx, if_pos h, if_neg hnx, if_pos h]
          norm_num
      rw [key]
      simp only [lexCmp]
      split_ifs <;> first | rfl | exact ih ys

theorem Slice.compare_eq_lexCmp (a b : Slice) (ha : a.wf) (hb : b.wf) :
    Slice.compare a b = lexCmp a.bytes b.bytes := by
  rw [← sliceCmpList_eq_lexCmp]
  unfold Slice.compare sliceCmpList
  rw [Slice.bytes_length a ha, Slice.bytes_length b hb]

theorem memcmp_mem (A : List Nat) : ∀ B, memcmp A B = -1 ∨ memcmp A B = 0 ∨ memcmp A B = 1 := by
  induction A with
  | nil => intro B; cases B <;> simp [memcmp]
  | cons x xs ih =>
    intro B
    cases B with
    | nil => simp [memcmp]
    | cons y ys =>
      simp only [memcmp]
      split_ifs <;> simp [ih ys]

theorem memcmp_self (A : List Nat) : memcmp A A = 0 :=
  (memcmp_eq_zero_iff A A rfl).mpr rfl

theorem Slice.compare_mem (a b : Slice) :
    Slice.compare a b = -1 ∨ Slice.compare a b = 0 ∨ Slice.compare a b = 1 := by
  unfold Slice.compare
  rcases memcmp_mem (a.bytes.take (min a.size_ b.size_))
      (b.bytes.take (min a.size_ b.size_)) with h | h | h <;>
    simp only [h] <;> split_ifs <;> simp

theorem list_getD_ext (A : List Nat) :
    ∀ B : List Nat, A.length = B.length →
      (∀ i, i < A.length → A.getD i 0 = B.getD i 0) → A = B := by
  induction A with
  | nil =>
    intro B hlen _
    cases B with
    | nil => rfl
    | cons y ys => simp at hlen
  | cons x xs ih =>
    intro B hlen h
    cases B with
    | nil => simp at hlen
    | cons y ys =>
      have h0 := h 0 (by simp)
      rw [List.getD_cons_zero, List.getD_cons_zero] at h0
      have hs : ∀ i, i < xs.length → xs.getD i 0 = ys.getD i 0 := by
        intro i hi
        have := h (i + 1) (by simp; omega)
        rwa [List.getD_cons_succ, List.getD_cons_succ] at this
      rw [h0, ih ys (by simpa using hlen) hs]

theorem Slice.size_def (s : Slice) : s.size = s.size_ := rfl

/-! ### The claims -/

/-- C1: `Slice::compare` performs three-way byte-wise lexicographic
comparison: it equals the lexicographic comparison `lexCmp` of the denoted
byte sequences (memcmp over the shorter length, the shorter span sorting
first on a tie), a strict proper prefix compares strictly below the longer
span, the result is `0` exactly on equal byte content and equal length, and
the induced order is a strict total order: asymmetric, trichotomous with
`0` exactly at byte equality, and transitive. -/
theorem slice_compare_lex_strict_total_order :
    (∀ a b : Slice, a.wf → b.wf → Slice.compare a b = lexCmp a.bytes b.bytes)
    ∧ (∀ a b : Slice, a.wf → b.wf → a.bytes = b.bytes.take a.size → a.size < b.size →
        Slice.compare a b < 0)
    ∧ (∀ a b : Slice, a.wf → b.wf → (Slice.compare a b = 0 ↔ a.bytes = b.bytes))
    ∧ (∀ a b : Slice, a.wf → b.wf → Slice.compare b a = -(Slice.compare a b))
    ∧ (∀ a b : Slice,
        Slice.compare a b = -1 ∨ Slice.compare a b = 0 ∨ Slice.compare a b = 1)
    ∧ (∀ a b c : Slice, a.wf → b.wf → c.wf →
        Slice.compare a b < 0 → Slice.compare b c < 0 → Slice.compare a c < 0) := by
  refine ⟨fun a b ha hb => Slice.compare_eq_lexCmp a b ha hb, ?_, ?_, ?_, ?_, ?_⟩
  · intro a b ha hb hpre hlt
    rw [Slice.size_def, Slice.size_def] at hlt
    rw [Slice.size_def] at hpre
    rw [Slice.compare_eq_lexCmp a b ha hb]
    have h1 : a.bytes.length < b.bytes.length := by
      rw [Slice.bytes_length a ha, Slice.bytes_length b hb]; exact hlt
    have h2 : a.bytes = b.bytes.take a.bytes.length := by
      rw [Slice.bytes_length a ha]; exact hpre
    rw [lexCmp_proper_head a.bytes b.bytes h1 h2]
    decide
  · intro a b ha hb
    rw [Slice.compare_eq_lexCmp a b ha hb]
    exact lexCmp_eq_zero_iff a.bytes b.bytes
  · intro a b ha hb
    rw [Slice.compare_eq_lexCmp a b ha hb, Slice.compare_eq_lexCmp b a hb ha]
    exact lexCmp_swap a.bytes b.bytes
  · exact fun a b => Slice.compare_mem a b
  · intro a b c ha hb hc h1 h2
    rw [Slice.compare_eq_lexCmp a b ha hb] at h1
    rw [Slice.compare_eq_lexCmp b c hb hc] at h2
    rw [Slice.compare_eq_lexCmp a c ha hc]
    have e1 : lexCmp a.bytes b.bytes = -1 := by
      rcases lexCmp_mem a.bytes b.bytes with h | h | h <;> omega
    have e2 : lexCmp b.bytes c.bytes = -1 := by
      rcases lexCmp_mem b.bytes c.bytes with h | h | h <;> omega
    rw [lexCmp_trans a.bytes b.bytes c.bytes e1 e2]
    decide

/-- C1 witness: `"he"` is a strict proper prefix of `"hello"`, so the view
over `"he"` compares strictly below the view over `"hello"`. -/
theorem slice_compare_lex_strict_total_order_witness :
    Slice.compare (Slice.ofBytes [104, 101]) (Slice.ofBytes [104, 101, 108, 108, 111]) < 0 :=
  slice_compare_lex_strict_total_order.2.1
    (Slice.ofBytes [104, 101]) (Slice.ofBytes [104, 101, 108, 108, 111])
    (by decide) (by decide) (by decide) (by decide)

/-- C2: for well-formed views, `compare` returning `0`, `operator==`, and
"equal sizes with bytes matching at every position" are all equivalent. -/
theorem slice_eq_iff_compare_zero (a b : Slice) (ha : a.wf) (hb : b.wf) :
    (Slice.compare a b = 0 ↔ Slice.beq a b = true)
    ∧ (Slice.beq a b = true ↔
        (a.size = b.size ∧ ∀ i, i < a.size → a.bytes.getD i 0 = b.bytes.getD i 0)) := by
  have hA : a.bytes.length = a.size_ := Slice.bytes_length a ha
  have hB : b.bytes.length = b.size_ := Slice.bytes_length b hb
  have htakeA : a.bytes.take a.size_ = a.bytes := by
    rw [← hA]; exact List.take_length _
  have hbeq : Slice.beq a b = true ↔ a.bytes = b.bytes := by
    unfold Slice.beq
    simp only [Bool.and_eq_true, beq_iff_eq]
    constructor
    · rintro ⟨hsz, hm⟩
      have htakeB : b.bytes.take a.size_ = b.bytes := by
        rw [hsz, ← hB]; exact List.take_length _
      rw [htakeA, htakeB] at hm
      exact (memcmp_eq_zero_iff a.bytes b.bytes (by rw [hA, hB, hsz])).mp hm
    · intro h
      have hsz : a.size_ = b.size_ := by rw [← hA, ← hB, h]
      have htakeB : b.bytes.take a.size_ = b.bytes := by
        rw [hsz, ← hB]; exact List.take_length _
      rw [htakeA, htakeB, h]
      exact ⟨hsz, memcmp_self b.bytes⟩
  have hbytes : a.bytes = b.bytes ↔
      (a.size = b.size ∧ ∀ i, i < a.size → a.bytes.getD i 0 = b.bytes.getD i 0) := by
    simp only [Slice.size_def]
    constructor
    · intro h
      refine ⟨by rw [← hA, ← hB, h], ?_⟩
      intro i _
      rw [h]
    · rintro ⟨h1, h2⟩
      refine list_getD_ext a.bytes b.bytes (by rw [hA, hB, h1]) ?_
      intro i hi
      exact h2 i (by rw [← hA]; exact hi)
  constructor
  · rw [Slice.compare_eq_lexCmp a b ha hb, hbeq]
    exact lexCmp_eq_zero_iff a.bytes b.bytes
  · exact hbeq.trans hbytes

/-- C2 witness: two views over the same two-byte buffer. -/
theorem slice_eq_iff_compare_zero_witness :
    Slice.compare (Slice.ofBytes [1, 2]) (Slice.ofBytes [1, 2]) = 0 ↔
      Slice.beq (Slice.ofBytes [1, 2]) (Slice.ofBytes [1, 2]) = true :=
  (slice_eq_iff_compare_zero (Slice.ofBytes [1, 2]) (Slice.ofBytes [1, 2])
    (by decide) (by decide)).1

/-- C7: for `n ≤ size`, `remove_prefix(n)` advances the pointer by `n` and
decreases the length by `n`, so the resulting view denotes exactly the
original bytes from offset `n` to the end; for `n > size` the precondition
assertion fires (modelled as `none`). -/
theorem slice_removePrefix_spec (s : Slice) (n : Nat) :
    (n ≤ s.size → ∃ s' : Slice, Slice.removePrefix s n = some s'
      ∧ s'.bytes = s.bytes.drop n ∧ s'.size = s.size - n
      ∧ s'.data = s.data + n ∧ s'.mem = s.mem)
    ∧ (s.size < n → Slice.removePrefix s n = none) := by
  constructor
  · intro h
    rw [Slice.size_def] at h
    refine ⟨⟨s.mem, s.data_ + n, s.size_ - n⟩, ?_, ?_, rfl, rfl, rfl⟩
    · unfold Slice.removePrefix
      rw [if_pos h]
    · unfold Slice.bytes
      rw [List.drop_take, List.drop_drop]
  · intro h
    rw [Slice.size_def] at h
    unfold Slice.removePrefix
    have hn : ¬ n ≤ s.size_ := by omega
    rw [if_neg hn]

/-- C7 witness: dropping two bytes from a four-byte view. -/
theorem slice_removePrefix_spec_witness :
    ∃ s' : Slice, Slice.removePrefix (Slice.ofBytes [5, 6, 7, 8]) 2 = some s'
      ∧ s'.bytes = (Slice.ofBytes [5, 6, 7, 8]).bytes.drop 2
      ∧ s'.size = (Slice.ofBytes [5, 6, 7, 8]).size - 2
      ∧ s'.data = (Slice.ofBytes [5, 6, 7, 8]).data + 2
      ∧ s'.mem = (Slice.ofBytes [5, 6, 7, 8]).mem :=
  (slice_removePrefix_spec (Slice.ofBytes [5, 6, 7, 8]) 2).1 (by decide)

/-- C8: under the precondition `n < size` (and the validity contract),
`operator[]` returns the byte at offset `n` of the view — the assertion
never fires; for `n ≥ size` it is the fatal assertion (modelled as `none`),
not a clamped read. -/
theorem slice_index_access_spec (s : Slice) (n : Nat) :
    (s.wf → n < s.size →
      Slice.get s n = s.bytes[n]? ∧ ∃ b, Slice.get s n = some b)
    ∧ (s.size ≤ n → Slice.get s n = none) := by
  constructor
  · intro hwf hn
    rw [Slice.size_def] at hn
    have hget : Slice.get s n = s.mem[s.data_ + n]? := by
      unfold Slice.get
      rw [if_pos hn]
    have hbytes : s.bytes[n]? = s.mem[s.data_ + n]? := by
      unfold Slice.bytes
      rw [List.getElem?_take_of_lt hn, List.getElem?_drop]
    refine ⟨by rw [hget, hbytes], ?_⟩
    have hlt : s.data_ + n < s.mem.length := by
      unfold Slice.wf at hwf
      omega
    exact ⟨s.mem[s.data_ + n], by rw [hget]; exact List.getElem?_eq_getElem hlt⟩
  · intro h
    rw [Slice.size_def] at h
    unfold Slice.get
    have hn : ¬ n < s.size_ := by omega
    rw [if_neg hn]

/-- C8 witness: reading index 1 of a three-byte view. -/
theorem slice_index_access_spec_witness :
    Slice.get (Slice.ofBytes [7, 8, 9]) 1 = (Slice.ofBytes [7, 8, 9]).bytes[1]?
      ∧ ∃ b, Slice.get (Slice.ofBytes [7, 8, 9]) 1 = some b :=
  (slice_index_access_spec (Slice.ofBytes [7, 8, 9]) 1).1 (by decide) (by decide)

/-- C3: `Slice_v::compare` is the three-way numeric composite-key
comparison — source first, destination only on a source tie, `0` exactly
when both components are equal (so the wildcard `-1` is an ordinary value
here) — and the spec's three concrete orderings hold. -/
theorem edgekey_compare_numeric :
    (∀ A B : Slice_v,
      (Slice_v.compare A B = 0 ↔ A.src = B.src ∧ A.dst = B.dst)
      ∧ (A.src < B.src → Slice_v.compare A B = -1)
      ∧ (B.src < A.src → Slice_v.compare A B = 1)
      ∧ (A.src = B.src → A.dst < B.dst → Slice_v.compare A B = -1)
      ∧ (A.src = B.src → B.dst < A.dst → Slice_v.compare A B = 1))
    ∧ Slice_v.compare (Slice_v.make 1 5) (Slice_v.make 2 0) < 0
    ∧ Slice_v.compare (Slice_v.make 3 2) (Slice_v.make 3 5) < 0
    ∧ Slice_v.compare (Slice_v.make 3 5) (Slice_v.make 3 5) = 0 := by
  refine ⟨?_, by decide, by decide, by decide⟩
  intro A B
  unfold Slice_v.compare Slice_v.src Slice_v.dst
  refine ⟨⟨fun h => ?_, fun h => ?_⟩, fun h => ?_, fun h => ?_,
    fun h h2 => ?_, fun h h2 => ?_⟩ <;>
    [skip; obtain ⟨h1, h2⟩ := h; skip; skip; skip; skip] <;>
    split_ifs at * <;> omega

/-- C3 witness: the wildcard destination `-1` is compared as the ordinary
integer `-1` by `compare`. -/
theorem edgekey_compare_numeric_witness :
    Slice_v.compare (Slice_v.make 3 (-1)) (Slice_v.make 3 5) = -1 :=
  ((edgekey_compare_numeric.1 (Slice_v.make 3 (-1)) (Slice_v.make 3 5)).2.2.2.1)
    rfl (by decide)

/-- C4: `operator==` on edge keys holds iff the sources match exactly and
the destinations match exactly or either destination is the wildcard `-1`;
`operator!=` is its negation; and the spec's three concrete cases hold. -/
theorem edgekey_eq_wildcard :
    (∀ A B : Slice_v,
      (Slice_v.beq A B = true ↔
        A.src = B.src ∧ (A.dst = B.dst ∨ A.dst = -1 ∨ B.dst = -1))
      ∧ Slice_v.bne A B = !(Slice_v.beq A B))
    ∧ Slice_v.beq (Slice_v.make 1 (-1)) (Slice_v.make 1 7) = true
    ∧ Slice_v.beq (Slice_v.make 1 7) (Slice_v.make 2 7) = false
    ∧ Slice_v.beq (Slice_v.make 1 7) (Slice_v.make 1 8) = false := by
  refine ⟨?_, by decide, by decide, by decide⟩
  intro A B
  constructor
  · unfold Slice_v.beq
    simp [Bool.and_eq_true, Bool.or_eq_true, beq_iff_eq, or_assoc]
  · rfl

/-- C5: the numeric pair ordering of `Slice_v::compare` disagrees with the
inherited byte-wise `Slice::compare` of the textual encodings: with sources
9 and 10, numeric comparison yields `-1` while the byte comparison of the
encoded strings yields `1`. -/
theorem edgekey_numeric_vs_byte_order_diverge :
    Slice_v.compare (Slice_v.make 9 0) (Slice_v.make 10 0) = -1
    ∧ Slice.compare (Slice_v.make 9 0).view (Slice_v.make 10 0).view = 1
    ∧ ∃ A B : Slice_v, Slice_v.compare A B < 0 ∧ 0 < Slice.compare A.view B.view :=
  ⟨by decide, by decide,
    ⟨Slice_v.make 9 0, Slice_v.make 10 0, by decide, by decide⟩⟩

/-- C6: wildcard equality is not transitive (hence not an equivalence
relation): `EdgeKey(1,5) == EdgeKey(1,-1)` and `EdgeKey(1,-1) == EdgeKey(1,7)`
but `EdgeKey(1,5) != EdgeKey(1,7)`. -/
theorem edgekey_eq_not_transitive :
    Slice_v.beq (Slice_v.make 1 5) (Slice_v.make 1 (-1)) = true
    ∧ Slice_v.beq (Slice_v.make 1 (-1)) (Slice_v.make 1 7) = true
    ∧ Slice_v.bne (Slice_v.make 1 5) (Slice_v.make 1 7) = true
    ∧ ¬ (∀ A B C : Slice_v, Slice_v.beq A B = true → Slice_v.beq B C = true →
          Slice_v.beq A C = true) := by
  refine ⟨by decide, by decide, by decide, fun h => ?_⟩
  exact absurd
    (h (Slice_v.make 1 5) (Slice_v.make 1 (-1)) (Slice_v.make 1 7)
      (by decide) (by decide))
    (by decide)

/-- C9: the `(src, dst)` constructor stores the two integers, builds the
self-owned encoding `"<src>|<dst>"` (decimal renderings joined by `'|'`),
and points the inherited view fields at that encoding; concretely
`EdgeKey(10, 2)` has source `10`, destination `2` and encoding `"10|2"`. -/
theorem edgekey_constructor_spec :
    (∀ s d : Int,
      (Slice_v.make s d).src = s ∧ (Slice_v.make s d).dst = d
      ∧ (Slice_v.make s d).s_ = toString s ++ "|" ++ toString d
      ∧ (Slice_v.make s d).view.mem = strBytes (Slice_v.make s d).s_
      ∧ (Slice_v.make s d).view.data = 0
      ∧ (Slice_v.make s d).view.size = (strBytes (Slice_v.make s d).s_).length
      ∧ (Slice_v.make s d).view.bytes = strBytes (Slice_v.make s d).s_)
    ∧ (Slice_v.make 10 2).src = 10 ∧ (Slice_v.make 10 2).dst = 2
    ∧ (Slice_v.make 10 2).s_ = "10|2" := by
  refine ⟨?_, rfl, rfl, by decide⟩
  intro s d
  refine ⟨rfl, rfl, rfl, rfl, rfl, rfl, ?_⟩
  show ((strBytes _).drop 0).take (strBytes _).length = strBytes _
  rw [List.drop_zero, List.take_length]
  rfl

/-- C10: despite the wildcard rule, edge-key equality is symmetric (the
wildcard test inspects both sides' destinations) and reflexive, including
for keys whose destination is the wildcard `-1`. -/
theorem edgekey_eq_symm_refl :
    (∀ A B : Slice_v, Slice_v.beq A B = Slice_v.beq B A)
    ∧ (∀ A : Slice_v, Slice_v.beq A A = true)
    ∧ Slice_v.beq (Slice_v.make 4 (-1)) (Slice_v.make 4 (-1)) = true := by
  refine ⟨?_, ?_, by decide⟩
  · intro A B
    rw [Bool.eq_iff_iff]
    unfold Slice_v.beq
    simp only [Bool.and_eq_true, Bool.or_eq_true, beq_iff_eq, or_assoc]
    constructor
    · rintro ⟨h1, h2⟩
      refine ⟨h1.symm, ?_⟩
      rcases h2 with h | h | h
      · exact Or.inl h.symm
      · exact Or.inr (Or.inr h)
      · exact Or.inr (Or.inl h)
    · rintro ⟨h1, h2⟩
      refine ⟨h1.symm, ?_⟩
      rcases h2 with h | h | h
      · exact Or.inl h.symm
      · exact Or.inr (Or.inr h)
      · exact Or.inr (Or.inl h)
  · intro A
    unfold Slice_v.beq
    simp

end LevelDB
